import Mathlib

/-!
Verification of the equation abstraction and the baseline-data pipeline of the
pde_superresolution package: a shallow embedding of `equations.py` and of
`scripts/create_baseline_data.py` over rational-valued arrays (`List ℚ`),
together with theorems checking the natural-language specification against it.

Array-math primitives (`np.roll`, concatenation, elementwise arithmetic) are
embedded concretely with their standard semantics; trigonometric functions and
the seeded random stream are treated as abstract parameters, matching the
specification's decision to treat them as external collaborators.
-/

namespace PdeSuperresolution

/-- Embedding of `Equation.__init__` (`equations.py` line 54): the grid spacing
`dx = period / num_points`. -/
def equation_dx (num_points : ℕ) (period : ℚ) : ℚ :=
  period / num_points

/-- Embedding of `Equation.__init__` (`equations.py` line 55): the grid
`x = np.arange(num_points) * dx`. -/
def equation_x (num_points : ℕ) (period : ℚ) : List ℚ :=
  (List.range num_points).map (fun i : ℕ => (i : ℚ) * equation_dx num_points period)

/-- Embedding of the NumPy primitive `np.roll(y, shift)` on one-dimensional
arrays: element `i` of the result is `y[(i - shift) mod n]`, realized as a left
rotation by `(-shift) mod n` positions. -/
def np_roll (y : List ℚ) (shift : ℤ) : List ℚ :=
  y.rotate (((- shift) % (y.length : ℤ)).toNat)

/-- Embedding of `_fixed_first_derivative` (`equations.py` lines 170-186):
`y_forward = concat(y[1:], y[:1])`, result `(1 / dx) * (y_forward - y)`
elementwise. -/
def fixed_first_derivative (y : List ℚ) (dx : ℚ) : List ℚ :=
  List.zipWith (fun f v => (1 / dx) * (f - v)) (y.drop 1 ++ y.take 1) y

/-- Embedding of `KdVEquation.finalize_time_derivative` (`equations.py` lines
238-246): `0.25 * np.roll(y_t, -1) + 0.5 * y_t + 0.25 * np.roll(y_t, 1)`,
with the time argument deleted unused. -/
def kdv_finalize (t : ℚ) (y_t : List ℚ) : List ℚ :=
  List.zipWith (fun u v => u + v)
    (List.zipWith (fun u v => u + v)
      ((np_roll y_t (-1)).map (fun v => 0.25 * v))
      (y_t.map (fun v => 0.5 * v)))
    ((np_roll y_t 1).map (fun v => 0.25 * v))

/-- Embedding of `ConservativeKdVEquation.finalize_time_derivative`: the class
(`equations.py` lines 249-262) overrides only `GRID_OFFSET`,
`DERIVATIVE_ORDERS` and `equation_of_motion`, so `finalize_time_derivative`
is inherited unchanged from `KdVEquation`. -/
def conservative_kdv_finalize : ℚ → List ℚ → List ℚ :=
  kdv_finalize

/-- Embedding of `ConservativeBurgersEquation.equation_of_motion`
(`equations.py` lines 195-202): `y` is deleted unused, the state is read from
`spatial_derivatives[0]`, `flux = eta * y_x - 0.5 * y ** 2`, and the result is
the fixed first derivative of the flux. -/
def conservativeBurgers_eom (eta : ℚ) (dx : ℚ) (y : List ℚ)
    (spatial_derivatives : ℕ → List ℚ) : List ℚ :=
  fixed_first_derivative
    (List.zipWith (fun u v => eta * v - 0.5 * u ^ 2)
      (spatial_derivatives 0) (spatial_derivatives 1)) dx

/-- Embedding of `ConservativeKdVEquation.equation_of_motion` (`equations.py`
lines 255-262): `y` is deleted unused, the state is read from
`spatial_derivatives[0]`, `flux = -3.0 * y ** 2 - y_xx`, and the result is the
fixed first derivative of the flux. -/
def conservativeKdV_eom (dx : ℚ) (y : List ℚ)
    (spatial_derivatives : ℕ → List ℚ) : List ℚ :=
  fixed_first_derivative
    (List.zipWith (fun u v => -3 * u ^ 2 - v)
      (spatial_derivatives 0) (spatial_derivatives 2)) dx

/-- Embedding of `ConservativeKSEquation.equation_of_motion` (`equations.py`
lines 309-317): `y` is deleted unused, the state is read from
`spatial_derivatives[0]`, `flux = -0.5 * y ** 2 - y_xxx - y_x`, and the result
is the fixed first derivative of the flux. -/
def conservativeKS_eom (dx : ℚ) (y : List ℚ)
    (spatial_derivatives : ℕ → List ℚ) : List ℚ :=
  fixed_first_derivative
    (List.zipWith (fun u v => u - v)
      (List.zipWith (fun u v => -0.5 * u ^ 2 - v)
        (spatial_derivatives 0) (spatial_derivatives 3))
      (spatial_derivatives 1)) dx

theorem length_np_roll (y : List ℚ) (s : ℤ) : (np_roll y s).length = y.length := by
  simp [np_roll]

theorem np_roll_neg_one (y : List ℚ) : np_roll y (-1) = y.rotate 1 := by
  rw [np_roll, neg_neg, show (1 : ℤ) = ((1 : ℕ) : ℤ) from by norm_cast,
    ← Int.natCast_mod 1 y.length, Int.toNat_natCast, List.rotate_mod]

theorem np_roll_one (y : List ℚ) : np_roll y 1 = y.rotate (y.length - 1) := by
  rcases Nat.eq_zero_or_pos y.length with h | h
  · simp [np_roll, h]
  · have e1 : (-(1 : ℤ)) % (y.length : ℤ) = (y.length : ℤ) - 1 := by
      rw [show (-(1 : ℤ)) = ((y.length : ℤ) - 1) + (-1) * (y.length : ℤ) from by ring,
        Int.add_mul_emod_self]
      exact Int.emod_eq_of_lt (by omega) (by omega)
    rw [np_roll, e1, show ((y.length : ℤ) - 1).toNat = y.length - 1 from by omega]

theorem fixed_first_derivative_rotate (y : List ℚ) (dx : ℚ) :
    fixed_first_derivative y dx
      = List.zipWith (fun f v => (1 / dx) * (f - v)) (y.rotate 1) y := by
  rcases y with _ | ⟨a, l⟩
  · rfl
  · rw [fixed_first_derivative, List.rotate_eq_drop_append_take (by simp)]

theorem length_fixed_first_derivative (y : List ℚ) (dx : ℚ) :
    (fixed_first_derivative y dx).length = y.length := by
  rw [fixed_first_derivative_rotate]
  simp

theorem fixed_first_derivative_get (y : List ℚ) (dx : ℚ) (i : ℕ) (hi : i < y.length) :
    (fixed_first_derivative y dx).get ⟨i, (length_fixed_first_derivative y dx).symm ▸ hi⟩
      = (1 / dx) *
          (y.get ⟨(i + 1) % y.length, Nat.mod_lt _ (Nat.lt_of_le_of_lt (Nat.zero_le i) hi)⟩
            - y.get ⟨i, hi⟩) := by
  simp only [fixed_first_derivative_rotate, List.get_eq_getElem, List.getElem_zipWith,
    List.getElem_rotate]

theorem length_kdv_finalize (t : ℚ) (y : List ℚ) :
    (kdv_finalize t y).length = y.length := by
  simp [kdv_finalize, length_np_roll]

theorem kdv_finalize_get (t : ℚ) (y : List ℚ) (i : ℕ) (hi : i < y.length) :
    (kdv_finalize t y).get ⟨i, (length_kdv_finalize t y).symm ▸ hi⟩
      = 0.25 * y.get ⟨(i + 1) % y.length, Nat.mod_lt _ (Nat.lt_of_le_of_lt (Nat.zero_le i) hi)⟩
        + 0.5 * y.get ⟨i, hi⟩
        + 0.25 * y.get ⟨(i + (y.length - 1)) % y.length,
            Nat.mod_lt _ (Nat.lt_of_le_of_lt (Nat.zero_le i) hi)⟩ := by
  simp only [kdv_finalize, np_roll_neg_one, np_roll_one, List.get_eq_getElem,
    List.getElem_zipWith, List.getElem_map, List.getElem_rotate]

theorem kdv_finalize_const (t : ℚ) (n : ℕ) (c : ℚ) :
    kdv_finalize t (List.replicate n c) = List.replicate n c := by
  apply List.ext_getElem
  · simp [length_kdv_finalize]
  · intro i h1 h2
    have hi : i < (List.replicate n c).length := by simpa using h2
    have hg := kdv_finalize_get t (List.replicate n c) i hi
    simp only [List.get_eq_getElem, List.getElem_replicate] at hg
    rw [hg]
    rw [List.getElem_replicate]
    ring

theorem length_equation_x (num_points : ℕ) (period : ℚ) :
    (equation_x num_points period).length = num_points := by
  rw [equation_x, List.length_map, List.length_range]

/-- C7: for every Equation constructed with `num_points > 0` and `period > 0`,
`dx` equals `period / num_points`, the grid `x` has length exactly `num_points`,
and `x[i] = i * dx` for every index `0 ≤ i < num_points`. -/
theorem equation_grid_spec (num_points : ℕ) (period : ℚ)
    (hn : 0 < num_points) (hp : 0 < period) :
    equation_dx num_points period = period / num_points
      ∧ (equation_x num_points period).length = num_points
      ∧ ∀ i (hi : i < num_points),
          (equation_x num_points period).get
              ⟨i, (length_equation_x num_points period).symm ▸ hi⟩
            = (i : ℚ) * equation_dx num_points period := by
  refine ⟨rfl, length_equation_x num_points period, ?_⟩
  intro i hi
  simp only [equation_x, List.get_eq_getElem, List.getElem_map, List.getElem_range]

/-- Witness for C7 at `num_points = 4`, `period = 2`. -/
theorem equation_grid_spec_witness :
    0 < 4 ∧ (0 : ℚ) < 2 ∧ (equation_x 4 2).length = 4 :=
  ⟨by decide, by norm_num, (equation_grid_spec 4 2 (by decide) (by norm_num)).2.1⟩

/-- C5: the fixed first-difference operator shared by all conservative variants
maps `y` with spacing `dx > 0` to the array whose element `i` is
`(y[(i+1) mod n] - y[i]) / dx` (periodic wraparound, realized by concatenating
`y[1:]` with `y[:1]`), and maps every spatially constant array to the all-zero
array. -/
theorem fixed_first_derivative_spec (y : List ℚ) (dx : ℚ) (hdx : 0 < dx) :
    (fixed_first_derivative y dx).length = y.length
      ∧ (∀ i (hi : i < y.length),
          (fixed_first_derivative y dx).get ⟨i, (length_fixed_first_derivative y dx).symm ▸ hi⟩
            = (y.get ⟨(i + 1) % y.length, Nat.mod_lt _ (Nat.lt_of_le_of_lt (Nat.zero_le i) hi)⟩
                - y.get ⟨i, hi⟩) / dx)
      ∧ ∀ (n : ℕ) (c : ℚ), fixed_first_derivative (List.replicate n c) dx = List.replicate n 0 := by
  refine ⟨length_fixed_first_derivative y dx, ?_, ?_⟩
  · intro i hi
    rw [fixed_first_derivative_get y dx i hi, one_div, inv_mul_eq_div]
  · intro n c
    apply List.ext_getElem
    · simp [length_fixed_first_derivative]
    · intro i h1 h2
      have hi : i < (List.replicate n c).length := by simpa using h2
      have hg := fixed_first_derivative_get (List.replicate n c) dx i hi
      simp only [List.get_eq_getElem, List.getElem_replicate] at hg
      rw [hg, List.getElem_replicate]
      ring

/-- Witness for C5 at `y = [1, 2, 4]`, `dx = 2`, constant array of length 3. -/
theorem fixed_first_derivative_spec_witness :
    (0 : ℚ) < 2
      ∧ fixed_first_derivative (List.replicate 3 (5 : ℚ)) 2 = List.replicate 3 0 :=
  ⟨by norm_num, (fixed_first_derivative_spec [1, 2, 4] 2 (by norm_num)).2.2 3 5⟩

/-- C6: the plain KdV `finalize_time_derivative` is the 3-point smoothing
`0.25 * shift(-1)(y_t) + 0.5 * y_t + 0.25 * shift(+1)(y_t)` with periodic
wraparound at both ends, independent of `t`, and maps every spatially constant
array to itself. -/
theorem kdv_finalize_spec :
    (∀ (t u : ℚ) (y : List ℚ), kdv_finalize t y = kdv_finalize u y)
      ∧ (∀ (t : ℚ) (y : List ℚ), (kdv_finalize t y).length = y.length)
      ∧ (∀ (t : ℚ) (y : List ℚ) (i : ℕ) (hi : i < y.length),
          (kdv_finalize t y).get ⟨i, (length_kdv_finalize t y).symm ▸ hi⟩
            = 0.25 * y.get ⟨(i + 1) % y.length,
                  Nat.mod_lt _ (Nat.lt_of_le_of_lt (Nat.zero_le i) hi)⟩
              + 0.5 * y.get ⟨i, hi⟩
              + 0.25 * y.get ⟨(i + (y.length - 1)) % y.length,
                  Nat.mod_lt _ (Nat.lt_of_le_of_lt (Nat.zero_le i) hi)⟩)
      ∧ ∀ (t : ℚ) (n : ℕ) (c : ℚ), kdv_finalize t (List.replicate n c) = List.replicate n c :=
  ⟨fun _ _ _ => rfl, length_kdv_finalize, kdv_finalize_get, kdv_finalize_const⟩

/-- Witness for C6: the smoothing fixes the constant array `[3, 3, 3, 3]`
at `t = 7`. -/
theorem kdv_finalize_spec_witness :
    kdv_finalize 7 (List.replicate 4 (3 : ℚ)) = List.replicate 4 3 :=
  kdv_finalize_spec.2.2.2 7 4 3

/-- C1 counterexample: for the Conservative KdV variant,
`finalize_time_derivative` is not the identity; at `t = 0` and
`y_t = [1, 0, 0, 0]` it returns `[0.5, 0.25, 0, 0.25]`. -/
theorem conservative_kdv_finalize_not_identity :
    conservative_kdv_finalize 0 [1, 0, 0, 0] ≠ [1, 0, 0, 0] := by
  intro h
  have hv : (conservative_kdv_finalize 0 [1, 0, 0, 0]).getD 0 0 = 0.5 := by
    have hg := kdv_finalize_get 0 ([1, 0, 0, 0] : List ℚ) 0 (by simp)
    rw [List.get_eq_getElem] at hg
    rw [show (conservative_kdv_finalize : ℚ → List ℚ → List ℚ) = kdv_finalize from rfl]
    rw [List.getD_eq_getElem _ _ (by rw [length_kdv_finalize]; simp)]
    rw [hg]
    norm_num [List.get_eq_getElem]
  rw [h] at hv
  norm_num at hv

/-- C1 amended: for the Conservative KdV variant, `finalize_time_derivative`
is inherited unchanged from the plain KdV variant, so it applies the 3-point
smoothing `0.25 * shift(-1) + 0.5 * y_t + 0.25 * shift(+1)` (not the
identity); it leaves constant arrays unchanged. -/
theorem conservative_kdv_finalize_spec :
    (∀ (t : ℚ) (y : List ℚ), conservative_kdv_finalize t y = kdv_finalize t y)
      ∧ (∀ (t : ℚ) (y : List ℚ) (i : ℕ) (hi : i < y.length),
          (conservative_kdv_finalize t y).get
              ⟨i, (length_kdv_finalize t y).symm ▸ hi⟩
            = 0.25 * y.get ⟨(i + 1) % y.length,
                  Nat.mod_lt _ (Nat.lt_of_le_of_lt (Nat.zero_le i) hi)⟩
              + 0.5 * y.get ⟨i, hi⟩
              + 0.25 * y.get ⟨(i + (y.length - 1)) % y.length,
                  Nat.mod_lt _ (Nat.lt_of_le_of_lt (Nat.zero_le i) hi)⟩)
      ∧ ∀ (t : ℚ) (n : ℕ) (c : ℚ),
          conservative_kdv_finalize t (List.replicate n c) = List.replicate n c :=
  ⟨fun _ _ => rfl, kdv_finalize_get, kdv_finalize_const⟩

/-- Witness for C1 amended: smoothing of the constant array `[2, 2, 2]`
at `t = 5`. -/
theorem conservative_kdv_finalize_spec_witness :
    conservative_kdv_finalize 5 (List.replicate 3 (2 : ℚ)) = List.replicate 3 2 :=
  conservative_kdv_finalize_spec.2.2 5 3 2

/-- C10: every conservative variant's `equation_of_motion` ignores its `y`
argument entirely; the state value is read from `spatial_derivatives[0]`. -/
theorem conservative_eom_ignores_y :
    ∀ (eta dx : ℚ) (y1 y2 : List ℚ) (d : ℕ → List ℚ),
      conservativeBurgers_eom eta dx y1 d = conservativeBurgers_eom eta dx y2 d
        ∧ conservativeKdV_eom dx y1 d = conservativeKdV_eom dx y2 d
        ∧ conservativeKS_eom dx y1 d = conservativeKS_eom dx y2 d :=
  fun _ _ _ _ _ => ⟨rfl, rfl, rfl⟩

/-- Embedding of the `RandomForcing` parameter state (`equations.py` lines
108-123): the five immutable attributes fixed at construction. -/
structure RandomForcing where
  a : List ℚ
  omega : List ℚ
  k : List ℚ
  phi : List ℚ
  period : ℚ

/-- Embedding of `RandomForcing.__call__` (`equations.py` lines 125-128):
`spatial_phase = 2 * pi * k * x / period` and the result is
`sum(a * sin(omega * t + spatial_phase + phi), axis=0)`, one value per
position; the trigonometric primitive `sin` and the float constant `pi` are
abstract parameters (external array-math collaborators). -/
def randomForcing_call (sin : ℚ → ℚ) (pi : ℚ) (f : RandomForcing) (t : ℚ)
    (x : List ℚ) : List ℚ :=
  x.map (fun xi =>
    ((f.a.zip (f.omega.zip (f.k.zip f.phi))).map
      (fun q => q.1 * sin (q.2.1 * t + 2 * pi * q.2.2.1 * xi / f.period + q.2.2.2))).sum)

theorem length_randomForcing_call (sin : ℚ → ℚ) (pi : ℚ) (f : RandomForcing)
    (t : ℚ) (x : List ℚ) :
    (randomForcing_call sin pi f t x).length = x.length := by
  rw [randomForcing_call, List.length_map]

/-- C8: for every RandomForcing instance with parameter vectors of length
`nparams`, `forcing(t, x)` returns at each position `x_i` the sum over the
`nparams` components of `a_p * sin(omega_p * t + 2 * pi * k_p * x_i / period
+ phi_p)`. -/
theorem randomForcing_call_spec (sin : ℚ → ℚ) (pi : ℚ) (f : RandomForcing)
    (nparams : ℕ) (ha : f.a.length = nparams) (hw : f.omega.length = nparams)
    (hk : f.k.length = nparams) (hphi : f.phi.length = nparams)
    (t : ℚ) (x : List ℚ) :
    (randomForcing_call sin pi f t x).length = x.length
      ∧ ∀ i (hi : i < x.length),
          (randomForcing_call sin pi f t x).get
              ⟨i, (length_randomForcing_call sin pi f t x).symm ▸ hi⟩
            = ∑ p ∈ Finset.range nparams,
                f.a.getD p 0 * sin (f.omega.getD p 0 * t
                  + 2 * pi * f.k.getD p 0 * x.get ⟨i, hi⟩ / f.period
                  + f.phi.getD p 0) := by
  refine ⟨length_randomForcing_call sin pi f t x, ?_⟩
  intro i hi
  have key : ∀ xi : ℚ,
      ((f.a.zip (f.omega.zip (f.k.zip f.phi))).map
        (fun q => q.1 * sin (q.2.1 * t + 2 * pi * q.2.2.1 * xi / f.period + q.2.2.2))).sum
        = ∑ p ∈ Finset.range nparams,
            f.a.getD p 0 * sin (f.omega.getD p 0 * t
              + 2 * pi * f.k.getD p 0 * xi / f.period + f.phi.getD p 0) := by
    intro xi
    have hzl : (f.a.zip (f.omega.zip (f.k.zip f.phi))).length = nparams := by
      simp [List.length_zip, ha, hw, hk, hphi]
    have hof : (f.a.zip (f.omega.zip (f.k.zip f.phi))).map
        (fun q => q.1 * sin (q.2.1 * t + 2 * pi * q.2.2.1 * xi / f.period + q.2.2.2))
        = List.ofFn (fun p : Fin nparams =>
            f.a.getD p 0 * sin (f.omega.getD p 0 * t
              + 2 * pi * f.k.getD p 0 * xi / f.period + f.phi.getD p 0)) := by
      apply List.ext_getElem
      · simp [hzl]
      · intro p h1 h2
        have hp : p < nparams := by
          rw [List.length_map, hzl] at h1
          exact h1
        simp only [List.getElem_map, List.getElem_zip, List.getElem_ofFn]
        rw [List.getD_eq_getElem f.a 0 (by omega), List.getD_eq_getElem f.omega 0 (by omega),
          List.getD_eq_getElem f.k 0 (by omega), List.getD_eq_getElem f.phi 0 (by omega)]
    rw [hof, List.sum_ofFn]
    exact Fin.sum_univ_eq_sum_range
      (fun p => f.a.getD p 0 * sin (f.omega.getD p 0 * t
        + 2 * pi * f.k.getD p 0 * xi / f.period + f.phi.getD p 0)) nparams
  simp only [randomForcing_call, List.get_eq_getElem, List.getElem_map]
  exact key x[i]

/-- Witness for C8 at a concrete two-component forcing evaluated on one
grid point. -/
theorem randomForcing_call_spec_witness :
    ([(1 : ℚ), 2].length = 2)
      ∧ (randomForcing_call id 1 ⟨[1, 2], [3, 4], [5, 6], [7, 8], 9⟩ 0 [1]).length = 1 :=
  ⟨rfl, (randomForcing_call_spec id 1 ⟨[1, 2], [3, 4], [5, 6], [7, 8], 9⟩ 2
      rfl rfl rfl rfl 0 [1]).1⟩

/-- Model of the NumPy random interface consumed by `RandomForcing.__init__`:
an abstract seeded generator state with the two draw operations the
constructor uses (`uniform` and `choice`), each returning the drawn array and
the advanced state; the specification treats random sampling as an external
collaborator. -/
structure NumpyRandomModel (σ : Type) where
  randomState : ℤ → σ
  uniform : σ → ℚ → ℚ → ℕ → List ℚ × σ
  choice : σ → List ℚ → ℕ → List ℚ × σ

/-- Embedding of `RandomForcing.__init__` (`equations.py` lines 111-123):
`rs = RandomState(seed)`, then in order
`a = 0.5 * amplitude * rs.uniform(-1, 1, nparams)`,
`omega = rs.uniform(-0.4, 0.4, nparams)`,
`k = rs.choice(concat([-k_values, k_values]), nparams)` with
`k_values = arange(1, k_max + 1)`, and `phi = rs.uniform(0, 2 * pi, nparams)`. -/
def randomForcing_init {σ : Type} (M : NumpyRandomModel σ) (pi : ℚ)
    (nparams : ℕ) (period : ℚ) (seed : ℤ) (amplitude : ℚ) (k_max : ℕ) :
    RandomForcing :=
  let rs0 := M.randomState seed
  let u1 := M.uniform rs0 (-1) 1 nparams
  let u2 := M.uniform u1.2 (-0.4) 0.4 nparams
  let k_values := (List.range k_max).map (fun i : ℕ => ((i : ℚ) + 1))
  let u3 := M.choice u2.2 (k_values.map (fun v => -v) ++ k_values) nparams
  let u4 := M.uniform u3.2 0 (2 * pi) nparams
  { a := u1.1.map (fun v => 0.5 * amplitude * v)
    omega := u2.1
    k := u3.1
    phi := u4.1
    period := period }

/-- C9: two RandomForcing instances constructed with identical
`(nparams, period, seed, amplitude, k_max)` through the same random generator
model have identical stored parameter vectors and produce identical outputs
for every `(t, x)` pair, including negative and fractional `t`. -/
theorem randomForcing_deterministic {σ : Type} (M : NumpyRandomModel σ)
    (pi : ℚ) (nparams : ℕ) (period : ℚ) (seed : ℤ) (amplitude : ℚ)
    (k_max : ℕ) (sin : ℚ → ℚ) :
    ∀ f1 f2 : RandomForcing,
      f1 = randomForcing_init M pi nparams period seed amplitude k_max →
      f2 = randomForcing_init M pi nparams period seed amplitude k_max →
      (f1.a = f2.a ∧ f1.omega = f2.omega ∧ f1.k = f2.k ∧ f1.phi = f2.phi)
        ∧ ∀ (t : ℚ) (x : List ℚ),
            randomForcing_call sin pi f1 t x = randomForcing_call sin pi f2 t x := by
  rintro f1 f2 rfl rfl
  exact ⟨⟨rfl, rfl, rfl, rfl⟩, fun _ _ => rfl⟩

/-- Concrete instance of the random interface, used for evaluation. -/
def constRandomModel : NumpyRandomModel Unit where
  randomState := fun _ => ()
  uniform := fun _ lo _ n => (List.replicate n lo, ())
  choice := fun _ _ n => (List.replicate n 0, ())

/-- Witness for C9: the two-run property evaluated on a concrete model and
concrete constructor arguments. -/
theorem randomForcing_deterministic_witness :
    (randomForcing_init constRandomModel 0 2 1 0 1 3).a
      = (randomForcing_init constRandomModel 0 2 1 0 1 3).a :=
  ((randomForcing_deterministic constRandomModel 0 2 1 0 1 3 id
      (randomForcing_init constRandomModel 0 2 1 0 1 3)
      (randomForcing_init constRandomModel 0 2 1 0 1 3) rfl rfl).1).1

/-- Names accepted by the equation registries (`equations.py` lines 320-330). -/
inductive EquationName where
  | burgers
  | kdv
  | ks
deriving DecidableEq

/-- The six concrete equation classes of `equations.py`. -/
inductive EquationType where
  | burgersType
  | conservativeBurgersType
  | kdvType
  | conservativeKdvType
  | ksType
  | conservativeKsType
deriving DecidableEq

/-- Embedding of `EQUATION_TYPES` (`equations.py` lines 320-324). -/
def EQUATION_TYPES : EquationName → EquationType
  | .burgers => .burgersType
  | .kdv => .kdvType
  | .ks => .ksType

/-- Embedding of `CONSERVATIVE_EQUATION_TYPES` (`equations.py` lines
326-330). -/
def CONSERVATIVE_EQUATION_TYPES : EquationName → EquationType
  | .burgers => .conservativeBurgersType
  | .kdv => .conservativeKdvType
  | .ks => .conservativeKsType

/-- Modelled from the spec: the per-variant boolean `CONSERVATIVE` class flag
("conservative (boolean flag, fixed per variant, asserted by the driver before
use)"). The attribute is declared outside the given source files; the given
`create_baseline_data.py` line 113 only consumes it. -/
def CONSERVATIVE : EquationType → Bool
  | .conservativeBurgersType => true
  | .conservativeKdvType => true
  | .conservativeKsType => true
  | _ => false

/-- Embedding of the checkable precondition of `create_equation_and_integrate`
(`create_baseline_data.py` lines 110-117): for a `(seed, accuracy_order)` task
the driver constructs the conservative variant registered under the configured
name and asserts `equation.CONSERVATIVE`. -/
def task_assertion (name : EquationName) (seed : ℕ) (accuracy_order : ℤ) : Bool :=
  CONSERVATIVE (CONSERVATIVE_EQUATION_TYPES name)

/-- C2: for every `(seed, accuracy_order)` task the conservative-variant
precondition passes for every equation name in the conservative registry, so
integration proceeds; the same check rejects every non-conservative equation
type. -/
theorem task_assertion_spec :
    (∀ (name : EquationName) (seed : ℕ) (accuracy_order : ℤ),
        task_assertion name seed accuracy_order = true)
      ∧ ∀ name : EquationName, CONSERVATIVE (EQUATION_TYPES name) = false := by
  constructor
  · intro name seed accuracy_order
    cases name <;> rfl
  · intro name
    cases name <;> rfl

/-- Modelled from the spec: the exact-solution-method enumeration with the
spectral member referenced by the exact-filter gate; the enumeration and the
per-type `EXACT_METHOD` attribute are declared outside the given source files
(the spec calls the attribute an extension point), so the attribute is an
arbitrary assignment passed as a parameter. -/
inductive ExactMethod where
  | polynomial
  | spectral
deriving DecidableEq

/-- Embedding of the exact-filter gate of `main` (`create_baseline_data.py`
lines 90-94): the interval passed on is the configured value exactly when the
named equation type's declared exact-solution method is spectral and the
configured float is truthy (nonzero); otherwise it is `None`. -/
def exact_filter_interval (exact_method : EquationType → ExactMethod)
    (name : EquationName) (configured : ℚ) : Option ℚ :=
  if exact_method (EQUATION_TYPES name) = ExactMethod.spectral ∧ configured ≠ 0 then
    some configured
  else
    none

/-- C3: the exact-filter interval is the configured value exactly when the
named equation type's declared exact-solution method is spectral and the
configured interval is nonzero, and is absent in every other case; the gate is
total over equation names. -/
theorem exact_filter_interval_spec (exact_method : EquationType → ExactMethod)
    (name : EquationName) (configured : ℚ) :
    (exact_filter_interval exact_method name configured = some configured
        ↔ exact_method (EQUATION_TYPES name) = ExactMethod.spectral ∧ configured ≠ 0)
      ∧ (exact_filter_interval exact_method name configured = none
        ↔ ¬(exact_method (EQUATION_TYPES name) = ExactMethod.spectral
              ∧ configured ≠ 0)) := by
  by_cases h : exact_method (EQUATION_TYPES name) = ExactMethod.spectral ∧ configured ≠ 0 <;>
    simp [exact_filter_interval, h]

/-- Embedding of the task plan of `main` (`create_baseline_data.py` lines
119-122): the Cartesian product of the seeds `0 .. num_samples - 1` with the
requested accuracy orders, each task tagged `(sample, accuracy_order)`. -/
def taskList (num_samples : ℕ) (accuracy_orders : List ℤ) : List (ℕ × ℤ) :=
  (List.range num_samples).flatMap
    (fun seed => accuracy_orders.map (fun a => (seed, a)))

/-- Embedding of `beam.CombinePerKey(ConcatCombineFn('accuracy_order'))`
(`create_baseline_data.py` line 124): the tagged partial results are grouped
by their sample key; each distinct key carries the concatenation, in arrival
order, of the accuracy-order coordinates of its results. -/
def combinePerKey (results : List (ℕ × ℤ)) : List (ℕ × List ℤ) :=
  ((results.map Prod.fst).dedup).map
    (fun s => (s, (results.filter (fun p => p.1 == s)).map Prod.snd))

instance : DecidableRel (fun g h : ℕ × List ℤ => g.1 ≤ h.1) :=
  fun g h => Nat.decLe g.1 h.1

instance : IsTotal (ℕ × List ℤ) (fun g h => g.1 ≤ h.1) :=
  ⟨fun g h => Nat.le_total g.1 h.1⟩

instance : IsTrans (ℕ × List ℤ) (fun g h => g.1 ≤ h.1) :=
  ⟨fun _ _ _ hab hbc => Nat.le_trans hab hbc⟩

/-- Embedding of `sortby('accuracy_order')` (`create_baseline_data.py` line
125) on one per-sample dataset: the slices along the accuracy-order dimension
are sorted by their coordinate value. -/
def sortByAccuracyOrder (g : ℕ × List ℤ) : ℕ × List ℤ :=
  (g.1, g.2.insertionSort (fun a b => a ≤ b))

/-- Embedding of `sortby('sample')` applied after
`beam.CombineGlobally(ConcatCombineFn('sample'))` (`create_baseline_data.py`
lines 126-127): the per-sample blocks, each carrying one scalar sample
coordinate, are sorted by that coordinate. -/
def sortBySample (gs : List (ℕ × List ℤ)) : List (ℕ × List ℤ) :=
  gs.insertionSort (fun g h => g.1 ≤ h.1)

/-- Flattening of a combined dataset into its `(sample, accuracy_order)`
coordinate pairs in storage order. -/
def concatDataset (gs : List (ℕ × List ℤ)) : List (ℕ × ℤ) :=
  gs.flatMap (fun g => g.2.map (fun a => (g.1, a)))

/-- Strict lexicographic order on `(sample, accuracy_order)` coordinates. -/
def lexLt (p q : ℕ × ℤ) : Prop :=
  p.1 < q.1 ∨ (p.1 = q.1 ∧ p.2 < q.2)

instance : DecidableRel lexLt :=
  fun p q => inferInstanceAs (Decidable (p.1 < q.1 ∨ (p.1 = q.1 ∧ p.2 < q.2)))

theorem mem_taskList {num_samples : ℕ} {accuracy_orders : List ℤ} {p : ℕ × ℤ} :
    p ∈ taskList num_samples accuracy_orders
      ↔ p.1 < num_samples ∧ p.2 ∈ accuracy_orders := by
  constructor
  · intro hp
    rcases List.mem_flatMap.mp hp with ⟨s, hs, hmem⟩
    rcases List.mem_map.mp hmem with ⟨a, hha, rfl⟩
    exact ⟨List.mem_range.mp hs, hha⟩
  · rintro ⟨h1, h2⟩
    refine List.mem_flatMap.mpr ⟨p.1, List.mem_range.mpr h1, ?_⟩
    exact List.mem_map.mpr ⟨p.2, h2, rfl⟩

theorem flatMap_ite_single {α : Type} (s : ℕ) (L : List α) :
    ∀ n : ℕ, s < n →
      (List.range n).flatMap (fun q => if q = s then L else []) = L := by
  intro n
  induction n with
  | zero => intro h; omega
  | succ m ih =>
    intro h
    rw [List.range_succ, List.flatMap_append, List.flatMap_singleton]
    rcases Nat.lt_or_ge s m with h2 | h2
    · rw [ih h2, if_neg (by omega)]
      exact List.append_nil L
    · have hsm : s = m := by omega
      subst hsm
      rw [if_pos rfl]
      have hz : (List.range s).flatMap (fun q => if q = s then L else []) = [] := by
        apply List.flatMap_eq_nil_iff.mpr
        intro q hq
        rw [if_neg (by have := List.mem_range.mp hq; omega)]
      rw [hz, List.nil_append]

theorem taskList_filter (num_samples : ℕ) (accuracy_orders : List ℤ) (s : ℕ)
    (hs : s < num_samples) :
    (taskList num_samples accuracy_orders).filter (fun p => p.1 == s)
      = accuracy_orders.map (fun a => (s, a)) := by
  have inner : ∀ q : ℕ,
      (accuracy_orders.map (fun a => ((q : ℕ), a))).filter (fun p => p.1 == s)
        = if q = s then accuracy_orders.map (fun a => (s, a)) else [] := by
    intro q
    by_cases hq : q = s
    · subst hq
      rw [if_pos rfl, List.filter_map]
      have : (accuracy_orders.filter ((fun p : ℕ × ℤ => p.1 == q) ∘ fun a => (q, a)))
          = accuracy_orders := by
        apply List.filter_eq_self.mpr
        intro a _
        simp
      rw [this]
    · rw [if_neg hq, List.filter_map]
      have : (accuracy_orders.filter ((fun p : ℕ × ℤ => p.1 == s) ∘ fun a => (q, a))) = [] := by
        apply List.filter_eq_nil_iff.mpr
        intro a _
        simp [hq]
      rw [this, List.map_nil]
  rw [taskList, List.filter_flatMap]
  simp only [inner]
  exact flatMap_ite_single s _ num_samples hs

theorem combinePerKey_keys (results : List (ℕ × ℤ)) :
    (combinePerKey results).map Prod.fst = (results.map Prod.fst).dedup := by
  rw [combinePerKey, List.map_map]
  exact List.map_id _

theorem mem_combinePerKey {results : List (ℕ × ℤ)} {g : ℕ × List ℤ}
    (hg : g ∈ combinePerKey results) :
    g.1 ∈ results.map Prod.fst
      ∧ g.2 = (results.filter (fun p => p.1 == g.1)).map Prod.snd := by
  rcases List.mem_map.mp hg with ⟨s, hs, rfl⟩
  exact ⟨List.mem_dedup.mp hs, rfl⟩

theorem concatDataset_combinePerKey (results : List (ℕ × ℤ)) :
    concatDataset (combinePerKey results)
      = ((results.map Prod.fst).dedup).flatMap
          (fun s => results.filter (fun p => p.1 == s)) := by
  rw [concatDataset, combinePerKey, List.flatMap_map]
  congr 1
  funext s
  show ((results.filter (fun p => p.1 == s)).map Prod.snd).map (fun a => (s, a))
      = results.filter (fun p => p.1 == s)
  rw [List.map_map]
  have h : ∀ p ∈ results.filter (fun p => p.1 == s),
      ((fun a => (s, a)) ∘ Prod.snd) p = id p := by
    intro p hp
    have h1 : p.1 = s := by
      have := (List.mem_filter.mp hp).2
      simpa using this
    show (s, p.2) = p
    rw [← h1]
  rw [List.map_congr_left h, List.map_id]

theorem sum_map_ite_nodup (c : ℕ) (k : ℕ) :
    ∀ L : List ℕ, L.Nodup →
      (L.map (fun s => if k = s then c else 0)).sum = if k ∈ L then c else 0 := by
  intro L
  induction L with
  | nil => intro _; simp
  | cons b L ih =>
    intro hnd
    rcases List.nodup_cons.mp hnd with ⟨hb, hL⟩
    rw [List.map_cons, List.sum_cons, ih hL]
    by_cases hkb : k = b
    · have hkL : k ∉ L := by rw [hkb]; exact hb
      rw [if_pos hkb, if_neg hkL, if_pos (List.mem_cons.mpr (Or.inl hkb))]
      exact Nat.add_zero _
    · rw [if_neg hkb]
      by_cases hkL : k ∈ L
      · rw [if_pos hkL, if_pos (List.mem_cons.mpr (Or.inr hkL))]
        exact Nat.zero_add _
      · rw [if_neg hkL, if_neg (by
          intro hc
          rcases List.mem_cons.mp hc with h | h
          · exact hkb h
          · exact hkL h)]

theorem concat_combinePerKey_perm (results : List (ℕ × ℤ)) :
    (concatDataset (combinePerKey results)).Perm results := by
  rw [concatDataset_combinePerKey, List.perm_iff_count]
  intro x
  show List.countP (fun p => decide (p = x))
        (((results.map Prod.fst).dedup).flatMap
          (fun s => results.filter (fun p => p.1 == s)))
      = List.countP (fun p => decide (p = x)) results
  rw [List.countP_flatMap]
  have hmap : List.map
        (List.countP (fun p => decide (p = x)) ∘ fun s => results.filter (fun p => p.1 == s))
        ((results.map Prod.fst).dedup)
      = List.map
          (fun s => if x.1 = s then List.countP (fun p => decide (p = x)) results else 0)
          ((results.map Prod.fst).dedup) := by
    apply List.map_congr_left
    intro s _
    show List.countP (fun p => decide (p = x)) (results.filter (fun p => p.1 == s)) = _
    rw [List.countP_filter]
    by_cases h : x.1 = s
    · rw [if_pos h]
      apply List.countP_congr
      intro y _
      by_cases hy : y = x
      · subst hy
        simp [h]
      · simp [hy]
    · rw [if_neg h]
      apply List.countP_eq_zero.mpr
      intro a _
      simp only [Bool.and_eq_true, decide_eq_true_eq, beq_iff_eq, not_and]
      rintro rfl
      exact h
  rw [hmap, sum_map_ite_nodup _ _ _ (List.nodup_dedup _)]
  by_cases hx : x.1 ∈ (results.map Prod.fst).dedup
  · rw [if_pos hx]
  · rw [if_neg hx]
    symm
    apply List.countP_eq_zero.mpr
    intro a ha
    simp only [decide_eq_true_eq]
    rintro rfl
    exact hx (List.mem_dedup.mpr (List.mem_map.mpr ⟨a, ha, rfl⟩))

theorem concatDataset_perm {gs hs : List (ℕ × List ℤ)} (h : gs.Perm hs) :
    (concatDataset gs).Perm (concatDataset hs) :=
  List.Perm.flatMap_right _ h

theorem concatDataset_sortGroups_perm (G : List (ℕ × List ℤ)) :
    (concatDataset (G.map sortByAccuracyOrder)).Perm (concatDataset G) := by
  rw [concatDataset, List.flatMap_map, concatDataset]
  apply List.Perm.flatMap_left
  intro g _
  exact List.Perm.map _ (List.perm_insertionSort _ _)

/-- C4: for every arrival order of the per-task partial results over the
requested Cartesian product of samples and accuracy orders (and every arrival
order of the per-sample combined datasets at the global combine), the
combine-then-sort stages produce one final dataset that is a permutation of
the requested product — every `(sample, accuracy_order)` pair exactly once,
no duplicates, no gaps — and is strictly increasing in the sample coordinate
with the accuracy-order coordinate strictly increasing within each sample
block (strict lexicographic order). -/
theorem pipeline_combine_sort_spec (num_samples : ℕ) (accuracy_orders : List ℤ)
    (arrived : List (ℕ × ℤ)) (globalArrived : List (ℕ × List ℤ))
    (hnd : accuracy_orders.Nodup)
    (harr : arrived.Perm (taskList num_samples accuracy_orders))
    (hglob : globalArrived.Perm ((combinePerKey arrived).map sortByAccuracyOrder)) :
    (concatDataset (sortBySample globalArrived)).Perm
        (taskList num_samples accuracy_orders)
      ∧ List.Pairwise lexLt (concatDataset (sortBySample globalArrived)) := by
  constructor
  · have p1 : (concatDataset (sortBySample globalArrived)).Perm
        (concatDataset globalArrived) :=
      concatDataset_perm (List.perm_insertionSort _ _)
    have p2 : (concatDataset globalArrived).Perm
        (concatDataset ((combinePerKey arrived).map sortByAccuracyOrder)) :=
      concatDataset_perm hglob
    have p3 := concatDataset_sortGroups_perm (combinePerKey arrived)
    have p4 := concat_combinePerKey_perm arrived
    exact (((p1.trans p2).trans p3).trans p4).trans harr
  · have hBperm : (sortBySample globalArrived).Perm globalArrived :=
      List.perm_insertionSort _ _
    have hsorted : List.Pairwise (fun g h : ℕ × List ℤ => g.1 ≤ h.1)
        (sortBySample globalArrived) :=
      List.sorted_insertionSort _ _
    have hkeys1 : ((combinePerKey arrived).map sortByAccuracyOrder).map Prod.fst
        = (combinePerKey arrived).map Prod.fst := by
      rw [List.map_map]
      apply List.map_congr_left
      intro g _
      rfl
    have hkeysnd : (((combinePerKey arrived).map sortByAccuracyOrder).map Prod.fst).Nodup := by
      rw [hkeys1, combinePerKey_keys]
      exact List.nodup_dedup _
    have hkeysB : ((sortBySample globalArrived).map Prod.fst).Nodup :=
      (List.Perm.map Prod.fst (hBperm.trans hglob)).nodup_iff.mpr hkeysnd
    have hne : List.Pairwise (fun g h : ℕ × List ℤ => g.1 ≠ h.1)
        (sortBySample globalArrived) :=
      List.pairwise_map.mp hkeysB
    have hlt : List.Pairwise (fun g h : ℕ × List ℤ => g.1 < h.1)
        (sortBySample globalArrived) :=
      List.Pairwise.imp (fun hab => Nat.lt_of_le_of_ne hab.1 hab.2) (hsorted.and hne)
    have hblocks : ∀ g ∈ sortBySample globalArrived,
        List.Pairwise (fun a b : ℤ => a < b) g.2 := by
      intro g hgB
      have hg2 : g ∈ (combinePerKey arrived).map sortByAccuracyOrder :=
        (hglob.mem_iff).mp ((hBperm.mem_iff).mp hgB)
      rcases List.mem_map.mp hg2 with ⟨g0, hg0, rfl⟩
      rcases mem_combinePerKey hg0 with ⟨hkey, hval⟩
      have hsort2 : List.Pairwise (fun a b : ℤ => a ≤ b) (sortByAccuracyOrder g0).2 :=
        List.sorted_insertionSort _ _
      rcases List.mem_map.mp hkey with ⟨p, hpmem, hpfst⟩
      have hpTL : p ∈ taskList num_samples accuracy_orders := (harr.mem_iff).mp hpmem
      have hlt_n : g0.1 < num_samples := by
        have h1 := (mem_taskList.mp hpTL).1
        omega
      have hperm_acc : g0.2.Perm accuracy_orders := by
        rw [hval]
        have h1 : (arrived.filter (fun p => p.1 == g0.1)).Perm
            ((taskList num_samples accuracy_orders).filter (fun p => p.1 == g0.1)) :=
          List.Perm.filter _ harr
        have h3 := List.Perm.map Prod.snd h1
        rw [taskList_filter num_samples accuracy_orders g0.1 hlt_n] at h3
        have h4 : (accuracy_orders.map (fun a => (g0.1, a))).map Prod.snd
            = accuracy_orders := by
          rw [List.map_map]
          exact List.map_id _
        rw [h4] at h3
        exact h3
      have hnodup2 : (sortByAccuracyOrder g0).2.Nodup := by
        have hp2 : (sortByAccuracyOrder g0).2.Perm g0.2 := List.perm_insertionSort _ _
        exact (hp2.trans hperm_acc).nodup_iff.mpr hnd
      exact List.Pairwise.imp
        (fun hab => lt_of_le_of_ne hab.1 hab.2) (hsort2.and hnodup2)
    rw [concatDataset, List.flatMap_def]
    apply List.pairwise_flatten.mpr
    constructor
    · intro c hc
      rcases List.mem_map.mp hc with ⟨g, hgB, rfl⟩
      apply List.pairwise_map.mpr
      exact List.Pairwise.imp (fun hab => Or.inr ⟨rfl, hab⟩) (hblocks g hgB)
    · apply List.pairwise_map.mpr
      apply List.Pairwise.imp ?_ hlt
      intro g h hgh x hx y hy
      rcases List.mem_map.mp hx with ⟨a, _, rfl⟩
      rcases List.mem_map.mp hy with ⟨b, _, rfl⟩
      exact Or.inl hgh

/-- Witness for C4: the spec's example — seeds arriving in order `{2, 0, 1}`
with accuracy orders arriving as `{3, 1}` — combined and doubly sorted into
the strictly ordered Cartesian product. -/
theorem pipeline_combine_sort_spec_witness :
    ([(1 : ℤ), 3]).Nodup
      ∧ ([((2 : ℕ), (3 : ℤ)), (0, 1), (2, 1), (1, 3), (0, 3), (1, 1)]).Perm
          (taskList 3 [1, 3])
      ∧ ([((1 : ℕ), [(1 : ℤ), 3]), (2, [1, 3]), (0, [1, 3])]).Perm
          ((combinePerKey
              [((2 : ℕ), (3 : ℤ)), (0, 1), (2, 1), (1, 3), (0, 3), (1, 1)]).map
            sortByAccuracyOrder)
      ∧ (concatDataset
            (sortBySample [((1 : ℕ), [(1 : ℤ), 3]), (2, [1, 3]), (0, [1, 3])])).Perm
          (taskList 3 [1, 3])
      ∧ List.Pairwise lexLt
          (concatDataset
            (sortBySample [((1 : ℕ), [(1 : ℤ), 3]), (2, [1, 3]), (0, [1, 3])])) :=
  ⟨by decide, by decide, by decide,
    (pipeline_combine_sort_spec 3 [1, 3]
      [((2 : ℕ), (3 : ℤ)), (0, 1), (2, 1), (1, 3), (0, 3), (1, 1)]
      [((1 : ℕ), [(1 : ℤ), 3]), (2, [1, 3]), (0, [1, 3])]
      (by decide) (by decide) (by decide)).1,
    (pipeline_combine_sort_spec 3 [1, 3]
      [((2 : ℕ), (3 : ℤ)), (0, 1), (2, 1), (1, 3), (0, 3), (1, 1)]
      [((1 : ℕ), [(1 : ℤ), 3]), (2, [1, 3]), (0, [1, 3])]
      (by decide) (by decide) (by decide)).2⟩

end PdeSuperresolution
